import Mathlib

/-!
Verification of the MIM particle-filter localization core
(`src/particle_filter/particle_filter.py`) against its specification.

The Python source is shallowly embedded: pure float arithmetic is modelled
over `ℚ` where only field operations occur and over `ℝ` where transcendental
functions (`exp`, `log`, `sqrt`, `arctan`) are involved; numpy arrays become
functions out of `Fin`-indexed types; the possible non-finite float values
that `softmax` must survive are modelled by an explicit extended-value type.
Each claim's theorem references the definitions translated from the source.
-/

namespace PF

/-! ## Clamping of particle coordinates (`np.clip`), lines 298-327

`np.clip(a, lo, hi)` computes `minimum(maximum(a, lo), hi)`. Particle
coordinates are rationals here (float arithmetic on coordinates is exact
field arithmetic plus rounding noise, which we quantify over). -/

/-- Scalar `np.clip`: `min (max v lo) hi`. -/
def clip (v lo hi : ℚ) : ℚ := min (max v lo) hi

theorem clip_mem (v lo hi : ℚ) (h : lo ≤ hi) : lo ≤ clip v lo hi ∧ clip v lo hi ≤ hi := by
  constructor
  · exact le_min (le_max_right _ _) h
  · exact min_le_right _ _

/-- One particle's coordinate history in `localize_one_image_on_big`:
after initialization the particle is clipped into
`[tw/2, W - tw/2] × [th/2, H - th/2]` (lines 318-319), and every diffusion
step adds arbitrary Gaussian noise and re-clips (lines 324-327).  The draw
before clipping is arbitrary, so initialization is `init` applied to any
raw sample and each iteration is `diffuse` with any noise realisation. -/
inductive ParticleReach (W H tw th : ℚ) : ℚ × ℚ → Prop where
  | init (x y : ℚ) :
      ParticleReach W H tw th
        (clip x (tw/2) (W - tw/2), clip y (th/2) (H - th/2))
  | diffuse (x y dx dy : ℚ) :
      ParticleReach W H tw th (x, y) →
      ParticleReach W H tw th
        (clip (x + dx) (tw/2) (W - tw/2), clip (y + dy) (th/2) (H - th/2))

/-- C1: for every configuration whose template fits inside the reference
image (`tw ≤ W`, `th ≤ H`), every particle position reachable after
initialization and after the diffusion step of any iteration keeps the
template window of size `(tw, th)` centered at the particle fully inside
the reference image bounds `[0, W] × [0, H]`. -/
theorem particle_window_in_bounds (W H tw th : ℚ) (htw : tw ≤ W) (hth : th ≤ H)
    (p : ℚ × ℚ) (hp : ParticleReach W H tw th p) :
    0 ≤ p.1 - tw/2 ∧ p.1 + tw/2 ≤ W ∧ 0 ≤ p.2 - th/2 ∧ p.2 + th/2 ≤ H := by
  have hx : tw/2 ≤ W - tw/2 := by linarith
  have hy : th/2 ≤ H - th/2 := by linarith
  induction hp with
  | init x y =>
      obtain ⟨h1, h2⟩ := clip_mem x (tw/2) (W - tw/2) hx
      obtain ⟨h3, h4⟩ := clip_mem y (th/2) (H - th/2) hy
      refine ⟨by linarith, by linarith, by linarith, by linarith⟩
  | diffuse x y dx dy _ _ =>
      obtain ⟨h1, h2⟩ := clip_mem (x + dx) (tw/2) (W - tw/2) hx
      obtain ⟨h3, h4⟩ := clip_mem (y + dy) (th/2) (H - th/2) hy
      refine ⟨by linarith, by linarith, by linarith, by linarith⟩

theorem particle_window_in_bounds_witness :
    (10 : ℚ) ≤ 100 ∧ (6 : ℚ) ≤ 80 ∧
    0 ≤ (clip 3 (10/2) (100 - 10/2), clip 200 (6/2) (80 - 6/2)).1 - 10/2 ∧
    (clip 3 (10/2) (100 - 10/2), clip 200 (6/2) (80 - 6/2)).1 + 10/2 ≤ 100 ∧
    0 ≤ (clip 3 (10/2) (100 - 10/2), clip 200 (6/2) (80 - 6/2)).2 - 6/2 ∧
    (clip 3 (10/2) (100 - 10/2), clip 200 (6/2) (80 - 6/2)).2 + 6/2 ≤ 80 := by
  refine ⟨by norm_num, by norm_num, ?_⟩
  have h := particle_window_in_bounds 100 80 10 6 (by norm_num) (by norm_num)
    _ (ParticleReach.init 3 200)
  exact ⟨h.1, h.2.1, h.2.2.1, h.2.2.2⟩

/-! ## Particle initialization sizes, lines 302-320

```
n_local_each = max(1, int(0.8 * cfg.NUM_PARTS / max(1, len(seeds))))
for xs, ys in seeds: parts_list.append(<n_local_each gaussian samples>)
n_local = n_local_each * (len(seeds) if len(seeds) else 1)
n_global = max(0, cfg.NUM_PARTS - n_local)
if n_global > 0: parts_list.append(<n_global uniform samples>)
parts = np.vstack(parts_list) if parts_list else np.zeros((cfg.NUM_PARTS,2))
weights = np.ones(parts.shape[0]) / parts.shape[0]
```
`int(0.8 * N / S)` truncates the float quotient toward zero; for the sizes
in range it equals `⌊4N / (5S)⌋`, i.e. natural division. -/

/-- Line 304: `max(1, int(0.8 * NUM_PARTS / max(1, len(seeds))))`. -/
def n_local_each (numParts nseeds : ℕ) : ℕ := max 1 (4 * numParts / (5 * max 1 nseeds))

/-- Line 310: `n_local = n_local_each * (len(seeds) if len(seeds) else 1)`. -/
def n_local (numParts nseeds : ℕ) : ℕ := n_local_each numParts nseeds * max 1 nseeds

/-- Line 311: `n_global = max(0, NUM_PARTS - n_local)` (ℕ-subtraction clamps at 0). -/
def n_global (numParts nseeds : ℕ) : ℕ := numParts - n_local numParts nseeds

/-- The row counts of the blocks appended to `parts_list`: one Gaussian
block of `n_local_each` rows per seed, then the uniform block when
`n_global > 0`. -/
def init_block_sizes (numParts nseeds : ℕ) : List ℕ :=
  List.replicate nseeds (n_local_each numParts nseeds) ++
    (if 0 < n_global numParts nseeds then [n_global numParts nseeds] else [])

/-- Number of particles right after initialization:
`np.vstack(parts_list)` when `parts_list` is nonempty, else the
`np.zeros((NUM_PARTS, 2))` fallback. -/
def init_count (numParts nseeds : ℕ) : ℕ :=
  if init_block_sizes numParts nseeds = [] then numParts
  else (init_block_sizes numParts nseeds).sum

/-- Line 320: `weights = np.ones(parts.shape[0]) / parts.shape[0]`. -/
def init_weights (numParts nseeds : ℕ) : List ℚ :=
  List.replicate (init_count numParts nseeds) (1 / (init_count numParts nseeds : ℚ))

/-- C4 counterexample: with `NUM_PARTS = 5` configured and the seeding
step's fixed 10 correlation peaks, initialization builds 10 particles,
not 5, and every initial weight is `1/10`, not `1/5`. -/
theorem init_count_five_ten_counterexample :
    init_count 5 10 = 10 ∧ init_count 5 10 ≠ 5 ∧
    init_weights 5 10 = List.replicate 10 (1/10 : ℚ) ∧ ((1 : ℚ)/10) ≠ 1/5 := by
  have hc : init_count 5 10 = 10 := by decide
  refine ⟨hc, by decide, ?_, by norm_num⟩
  unfold init_weights
  rw [hc]
  norm_num

/-- C4 amended: when `S ≥ 1` seeds are found, initialization yields
`max N (n_local N S)` particles — exactly `N` whenever the seeded block
total `n_local N S = S * max(1, ⌊0.8N/S⌋)` does not exceed `N` — and
every initial weight equals `1 / init_count` (so the weights sum to 1). -/
theorem init_count_amended (N S : ℕ) (hN : 1 ≤ N) (hS : 1 ≤ S) :
    init_count N S = max N (n_local N S) ∧
    (n_local N S ≤ N → init_count N S = N) ∧
    init_weights N S = List.replicate (init_count N S) (1 / (init_count N S : ℚ)) ∧
    (init_weights N S).sum = 1 := by
  have hmax : max 1 S = S := Nat.max_eq_right hS
  have hblocks : init_block_sizes N S ≠ [] := by
    unfold init_block_sizes
    intro h
    rcases List.append_eq_nil.mp h with ⟨h1, -⟩
    have := List.length_replicate S (n_local_each N S)
    rw [h1] at this
    simp at this
    omega
  have hsum : (init_block_sizes N S).sum = max N (n_local N S) := by
    unfold init_block_sizes n_global
    rw [List.sum_append, List.sum_replicate, smul_eq_mul]
    have hloc : S * n_local_each N S = n_local N S := by
      unfold n_local; rw [hmax]; ring
    by_cases hc : 0 < N - n_local N S
    · rw [if_pos hc]; simp [hloc]; omega
    · rw [if_neg hc]; simp [hloc]; omega
  have hcount : init_count N S = max N (n_local N S) := by
    unfold init_count
    rw [if_neg hblocks, hsum]
  refine ⟨hcount, fun h => by rw [hcount]; omega, rfl, ?_⟩
  have hpos : 0 < init_count N S := by rw [hcount]; omega
  unfold init_weights
  rw [List.sum_replicate, nsmul_eq_mul]
  rw [mul_one_div, div_self]
  exact_mod_cast Nat.pos_iff_ne_zero.mp hpos

theorem init_count_amended_witness :
    1 ≤ 20 ∧ 1 ≤ 10 ∧ init_count 20 10 = max 20 (n_local 20 10) ∧
    (n_local 20 10 ≤ 20 → init_count 20 10 = 20) ∧
    (init_weights 20 10).sum = 1 := by
  have h := init_count_amended 20 10 (by decide) (by decide)
  exact ⟨by decide, by decide, h.1, h.2.1, h.2.2.2⟩

/-! ## Template size gate, lines 269-271

```
th, tw = tpl.shape
if th < 8 or tw < 8:
    raise ValueError(f"Template too small after scaling: {th}x{tw}")
```
The raise happens before the template features, seeding, initialization,
scoring, and resampling; the rest of the body is modelled as a thunk that
the gate either never forces (error case) or forces exactly once. -/

/-- The size check at the top of `localize_one_image_on_big`, with the rest
of the localization body abstracted as a thunk `rest`. -/
def localize_size_gate {α : Type} (th tw : ℕ) (rest : Unit → α) : Except String α :=
  if th < 8 ∨ tw < 8 then Except.error "Template too small after scaling"
  else Except.ok (rest ())

/-- C5: a post-rescale template with either dimension below 8 px makes
localization fail with the template-too-small error without running any of
the particle computation (the result does not depend on the rest of the
body), while templates with both dimensions at least 8 px pass the gate
and run the body. -/
theorem template_too_small_gate {α : Type} (th tw : ℕ) (f g : Unit → α) :
    (th < 8 ∨ tw < 8 →
      localize_size_gate th tw f = Except.error "Template too small after scaling" ∧
      localize_size_gate th tw f = localize_size_gate th tw g) ∧
    (8 ≤ th → 8 ≤ tw → localize_size_gate th tw f = Except.ok (f ())) := by
  constructor
  · intro h
    unfold localize_size_gate
    rw [if_pos h, if_pos h]
    exact ⟨rfl, rfl⟩
  · intro h1 h2
    unfold localize_size_gate
    rw [if_neg (by omega)]

theorem template_too_small_gate_witness :
    ((4 < 8 ∨ 10 < 8) ∧
      localize_size_gate 4 10 (fun _ => (0 : ℕ)) =
        Except.error "Template too small after scaling") ∧
    (8 ≤ 9 ∧ 8 ≤ 12 ∧
      localize_size_gate 9 12 (fun _ => (0 : ℕ)) = Except.ok 0) := by
  constructor
  · exact ⟨by norm_num,
      ((template_too_small_gate 4 10 (fun _ => (0:ℕ)) (fun _ => 1)).1 (by norm_num)).1⟩
  · exact ⟨by norm_num, by norm_num,
      (template_too_small_gate 9 12 (fun _ => (0:ℕ)) (fun _ => 1)).2 (by norm_num) (by norm_num)⟩

/-! ## Pixel → physical unit conversion, lines 437-441

```
u_per_px = 1.0 / ctx.px_per_unit_big
x_u = (xh_px - ORIGIN_PX[0]) * u_per_px
y_u = -((yh_px - ORIGIN_PX[1]) * u_per_px)
```
Pure field arithmetic, modelled exactly over `ℚ`. -/

/-- The pixel → physical map of `localize_one_image_on_big`. -/
def to_physical (originX originY ppu px py : ℚ) : ℚ × ℚ :=
  ((px - originX) * (1 / ppu), -((py - originY) * (1 / ppu)))

/-- Modelled from the spec: the inverse transform of the unit conversion
(`px_x = origin_x + x_u * px_per_unit`, `px_y = origin_y - y_u * px_per_unit`);
the repository only implements the forward map, the spec's round-trip
property refers to this mathematical inverse. -/
def from_physical (originX originY ppu ux uy : ℚ) : ℚ × ℚ :=
  (originX + ux * ppu, originY - uy * ppu)

/-- C8: the conversion computes `physical x = (px_x − origin_x)/px_per_unit`
and `physical y = −(px_y − origin_y)/px_per_unit`, and for every origin and
every `px_per_unit > 0` applying the inverse transform to the physical
position returns the original pixel position (exactly, in the real-number
model, hence within floating tolerance). -/
theorem unit_conversion_round_trip (ox oy ppu px py : ℚ) (hppu : 0 < ppu) :
    to_physical ox oy ppu px py = ((px - ox) / ppu, -((py - oy) / ppu)) ∧
    from_physical ox oy ppu (to_physical ox oy ppu px py).1
      (to_physical ox oy ppu px py).2 = (px, py) := by
  have hne : ppu ≠ 0 := ne_of_gt hppu
  constructor
  · unfold to_physical
    rw [Prod.mk.injEq]
    constructor <;> field_simp
  · unfold to_physical from_physical
    rw [Prod.mk.injEq]
    constructor <;> field_simp

theorem unit_conversion_round_trip_witness :
    (0 : ℚ) < 2 ∧
    from_physical (8871/10) (2568/5) 2
      (to_physical (8871/10) (2568/5) 2 100 250).1
      (to_physical (8871/10) (2568/5) 2 100 250).2 = (100, 250) := by
  exact ⟨by norm_num, (unit_conversion_round_trip (8871/10) (2568/5) 2 100 250 (by norm_num)).2⟩

/-! ## Softmax weighting, lines 144-150

```
def softmax(x, g):
    x = np.asarray(x, np.float64)
    m = np.nanmax(x)
    z = np.exp(np.clip(g * (x - m), -700, 700))
    z = np.where(np.isfinite(z), z, 0.0)
    s = z.sum()
    return z / s if s > 0 else np.ones_like(z) / len(z)
```
Scores can be IEEE-754 `-inf`, `+inf` or `NaN`, so the score domain is the
type `FVal` below; finite values carry an exact real.  The IEEE semantics of
each numpy operation on non-finite values is spelled out case by case. -/

/-- A float64 score: a finite real, `+inf`, `-inf`, or `NaN`. -/
inductive FVal where
  | fin (x : ℝ)
  | pinf
  | ninf
  | nan

namespace FVal

def isNan : FVal → Bool
  | nan => true
  | _ => false

/-- Binary `np.maximum` on non-NaN values (`nanmax` filters NaN away first). -/
noncomputable def fmax : FVal → FVal → FVal
  | nan, _ => nan
  | _, nan => nan
  | pinf, _ => pinf
  | _, pinf => pinf
  | ninf, v => v
  | v, ninf => v
  | fin a, fin b => fin (max a b)

/-- Model of `np.nanmax`: maximum ignoring NaNs; NaN when every entry is NaN. -/
noncomputable def nanmax (xs : List FVal) : FVal :=
  match xs.filter (fun v => !v.isNan) with
  | [] => nan
  | y :: t => t.foldl fmax y

/-- IEEE float subtraction on the extended values. -/
noncomputable def fsub : FVal → FVal → FVal
  | nan, _ => nan
  | _, nan => nan
  | pinf, pinf => nan
  | pinf, _ => pinf
  | ninf, ninf => nan
  | ninf, _ => ninf
  | fin _, pinf => ninf
  | fin _, ninf => pinf
  | fin a, fin b => fin (a - b)

open Classical in
/-- IEEE multiplication by the finite softmax gain `g` (`0 * inf = NaN`). -/
noncomputable def fscale (g : ℝ) : FVal → FVal
  | fin a => fin (g * a)
  | pinf => if 0 < g then pinf else if g < 0 then ninf else nan
  | ninf => if 0 < g then ninf else if g < 0 then pinf else nan
  | nan => nan

/-- Model of `np.clip(v, lo, hi) = minimum(maximum(v, lo), hi)`; comparisons with
NaN are false, so NaN propagates; the infinities clamp to the ends. -/
noncomputable def fclip (lo hi : ℝ) : FVal → FVal
  | fin a => fin (min (max a lo) hi)
  | pinf => fin hi
  | ninf => fin lo
  | nan => nan

/-- Model of `np.exp` (the argument is already clipped to `[-700, 700]`, so the
finite case never overflows in float64). -/
noncomputable def fexp : FVal → FVal
  | fin a => fin (Real.exp a)
  | pinf => pinf
  | ninf => fin 0
  | nan => nan

/-- Model of `np.where(np.isfinite(z), z, 0.0)` on one entry. -/
def toNum : FVal → ℝ
  | fin a => a
  | _ => 0

end FVal

/-- The vector `z` of exponentiated, NaN-scrubbed scores. -/
noncomputable def expScores (xs : List FVal) (g : ℝ) : List ℝ :=
  xs.map (fun v => ((((v.fsub (FVal.nanmax xs)).fscale g).fclip (-700) 700).fexp).toNum)

open Classical in
/-- The function `softmax(x, g)` of lines 144-150. -/
noncomputable def softmax (xs : List FVal) (g : ℝ) : List ℝ :=
  let z := expScores xs g
  let s := z.sum
  if 0 < s then z.map (fun v => v / s)
  else List.replicate xs.length (1 / (xs.length : ℝ))

theorem expScores_nonneg (xs : List FVal) (g : ℝ) :
    ∀ z ∈ expScores xs g, 0 ≤ z := by
  intro z hz
  rw [expScores, List.mem_map] at hz
  obtain ⟨v, -, rfl⟩ := hz
  rcases h : ((v.fsub (FVal.nanmax xs)).fscale g).fclip (-700) 700 with a | _ | _ | _ <;>
    simp [FVal.fexp, FVal.toNum, Real.exp_nonneg]

theorem list_sum_map_div (l : List ℝ) (s : ℝ) :
    (l.map (fun v => v / s)).sum = l.sum / s := by
  induction l with
  | nil => simp
  | cons a t ih => simp [ih, add_div]

/-- C2: for every nonempty score vector over the extended float values
(arbitrary finite scores, all-equal scores, all-`-inf` scores, NaNs) and
every gain, the weight vector returned by `softmax` sums to exactly 1
(hence to 1 within `1e-9`) and has no negative entry (every entry is a
real number, so none is non-finite); and whenever every exponentiated
score collapses to zero the result is the uniform distribution `1/N`. -/
theorem softmax_weights_valid (xs : List FVal) (g : ℝ) (hne : xs ≠ []) :
    (softmax xs g).sum = 1 ∧
    |(softmax xs g).sum - 1| ≤ 1e-9 ∧
    (∀ w ∈ softmax xs g, 0 ≤ w) ∧
    ((∀ z ∈ expScores xs g, z = 0) →
      softmax xs g = List.replicate xs.length (1 / (xs.length : ℝ))) := by
  have hlen : 0 < xs.length := List.length_pos.mpr hne
  have hlenR : (0 : ℝ) < (xs.length : ℝ) := by exact_mod_cast hlen
  have hsum1 : (softmax xs g).sum = 1 := by
    rw [softmax]
    by_cases hs : 0 < (expScores xs g).sum
    · rw [if_pos hs, list_sum_map_div, div_self (ne_of_gt hs)]
    · rw [if_neg hs, List.sum_replicate, nsmul_eq_mul, mul_one_div,
        div_self (ne_of_gt hlenR)]
  refine ⟨hsum1, by rw [hsum1]; norm_num, ?_, ?_⟩
  · intro w hw
    rw [softmax] at hw
    by_cases hs : 0 < (expScores xs g).sum
    · rw [if_pos hs, List.mem_map] at hw
      obtain ⟨z, hz, rfl⟩ := hw
      exact div_nonneg (expScores_nonneg xs g z hz) (le_of_lt hs)
    · rw [if_neg hs, List.mem_replicate] at hw
      rw [hw.2]
      positivity
  · intro hall
    have hz0 : (expScores xs g).sum = 0 := List.sum_eq_zero hall
    rw [softmax, hz0, if_neg (lt_irrefl 0)]

theorem softmax_weights_valid_witness :
    [FVal.ninf, FVal.ninf] ≠ [] ∧
    (softmax [FVal.ninf, FVal.ninf] 20).sum = 1 ∧
    (∀ w ∈ softmax [FVal.ninf, FVal.ninf] 20, 0 ≤ w) := by
  have h := softmax_weights_valid [FVal.ninf, FVal.ninf] 20 (by simp)
  exact ⟨by simp, h.1, h.2.2.1⟩

/-! ## Gradient features, lines 116-136

`scipy.ndimage.sobel(img, axis)` correlates with `[-1, 0, 1]` along `axis`
and with the smoothing kernel `[1, 2, 1]` along the other axis, using the
`reflect` boundary mode, which for the one-step overhang of a 3-tap kernel
maps index `-1` to `0` and index `n` to `n - 1`. -/

/-- Row/column index one step back under the `reflect` boundary. -/
def finPred {n : ℕ} (i : Fin n) : Fin n :=
  ⟨i.val - 1, lt_of_le_of_lt (Nat.sub_le _ _) i.isLt⟩

/-- Row/column index one step forward under the `reflect` boundary. -/
def finNext {n : ℕ} (i : Fin n) : Fin n :=
  ⟨min (i.val + 1) (n - 1), lt_of_le_of_lt (min_le_right _ _) (Nat.sub_lt i.pos Nat.one_pos)⟩

/-- Model of `sobel(img, axis=1)`: derivative along columns, smoothing along rows. -/
def sobelX {H W : ℕ} (A : Fin H → Fin W → ℝ) (i : Fin H) (j : Fin W) : ℝ :=
  (A (finPred i) (finNext j) - A (finPred i) (finPred j))
    + 2 * (A i (finNext j) - A i (finPred j))
    + (A (finNext i) (finNext j) - A (finNext i) (finPred j))

/-- Model of `sobel(img, axis=0)`: derivative along rows, smoothing along columns. -/
def sobelY {H W : ℕ} (A : Fin H → Fin W → ℝ) (i : Fin H) (j : Fin W) : ℝ :=
  (A (finNext i) (finPred j) - A (finPred i) (finPred j))
    + 2 * (A (finNext i) j - A (finPred i) j)
    + (A (finNext i) (finNext j) - A (finPred i) (finNext j))

/-- Model of `np.arctan2(y, x)` restricted to the nonnegative arguments produced by
`np.abs` (first quadrant): `arctan(y/x)` for `x > 0`, `π/2` on the positive
`y`-axis, and `0` at the origin. -/
noncomputable def atan2abs (y x : ℝ) : ℝ :=
  if 0 < x then Real.arctan (y / x) else if 0 < y then Real.pi / 2 else 0

/-- The orientation half of `grad_ori_unsigned`:
`np.arctan2(np.abs(gy), np.abs(gx))`. -/
noncomputable def oriOf {H W : ℕ} (A : Fin H → Fin W → ℝ) (i : Fin H) (j : Fin W) : ℝ :=
  atan2abs |sobelY A i j| |sobelX A i j|

/-- The magnitude half of `grad_ori_unsigned` (and `grad_mag`):
`np.hypot(gx, gy)`. -/
noncomputable def magOf {H W : ℕ} (A : Fin H → Fin W → ℝ) (i : Fin H) (j : Fin W) : ℝ :=
  Real.sqrt (sobelX A i j ^ 2 + sobelY A i j ^ 2)

/-- Membership of a value in histogram bin `b` for `np.histogram` with
edges `np.linspace(0, π, bins + 1)`: the edges are `π * k / bins`, each bin
is closed-open, and the last bin also includes the right endpoint `π`. -/
def binned (bins : ℕ) (b : Fin bins) (v : ℝ) : Prop :=
  (Real.pi * b.val / bins ≤ v ∧ v < Real.pi * (b.val + 1) / bins) ∨
    (b.val = bins - 1 ∧ v = Real.pi)

open Classical in
/-- One pixel's contribution to histogram bin `b`: its gradient magnitude
when its orientation falls in the bin, `0` otherwise. -/
noncomputable def binContrib (bins : ℕ) (b : Fin bins) (v m : ℝ) : ℝ :=
  if binned bins b v then m else 0

/-- The magnitude-weighted orientation histogram before normalization:
`np.histogram(ori.ravel(), bins=edges, weights=mag.ravel())`. -/
noncomputable def rawHist {H W : ℕ} (ori mag : Fin H → Fin W → ℝ) (bins : ℕ)
    (b : Fin bins) : ℝ :=
  ∑ i, ∑ j, binContrib bins b (ori i j) (mag i j)

open Classical in
/-- Entry `b` of `hist_unsigned(ori, mag, bins)`: zero on an empty input,
else the raw histogram divided by `np.linalg.norm(h) + 1e-9`. -/
noncomputable def hist_unsigned {H W : ℕ} (ori mag : Fin H → Fin W → ℝ) (bins : ℕ)
    (b : Fin bins) : ℝ :=
  if H * W = 0 then 0
  else rawHist ori mag bins b / (Real.sqrt (∑ c, rawHist ori mag bins c ^ 2) + 1e-9)

/-- A 180°-rotated copy of the image region (`img[::-1, ::-1]`). -/
def rot180 {H W : ℕ} (A : Fin H → Fin W → ℝ) : Fin H → Fin W → ℝ :=
  fun i j => A i.rev j.rev

theorem rev_finPred {n : ℕ} (i : Fin n) : (finPred i).rev = finNext i.rev := by
  apply Fin.ext
  rw [Fin.val_rev]
  simp only [finPred, finNext, Fin.val_rev]
  omega

theorem rev_finNext {n : ℕ} (i : Fin n) : (finNext i).rev = finPred i.rev := by
  apply Fin.ext
  rw [Fin.val_rev]
  simp only [finPred, finNext, Fin.val_rev]
  omega

theorem sobelX_rot180 {H W : ℕ} (A : Fin H → Fin W → ℝ) (i : Fin H) (j : Fin W) :
    sobelX (rot180 A) i j = -(sobelX A i.rev j.rev) := by
  simp only [sobelX, rot180, rev_finPred, rev_finNext]
  ring

theorem sobelY_rot180 {H W : ℕ} (A : Fin H → Fin W → ℝ) (i : Fin H) (j : Fin W) :
    sobelY (rot180 A) i j = -(sobelY A i.rev j.rev) := by
  simp only [sobelY, rot180, rev_finPred, rev_finNext]
  ring

theorem oriOf_rot180 {H W : ℕ} (A : Fin H → Fin W → ℝ) (i : Fin H) (j : Fin W) :
    oriOf (rot180 A) i j = oriOf A i.rev j.rev := by
  rw [oriOf, oriOf, sobelX_rot180, sobelY_rot180, abs_neg, abs_neg]

theorem magOf_rot180 {H W : ℕ} (A : Fin H → Fin W → ℝ) (i : Fin H) (j : Fin W) :
    magOf (rot180 A) i j = magOf A i.rev j.rev := by
  rw [magOf, magOf, sobelX_rot180, sobelY_rot180, neg_pow, neg_pow]
  norm_num

theorem sum_fin_rev {n : ℕ} (f : Fin n → ℝ) : ∑ i, f (Fin.rev i) = ∑ i, f i :=
  Fintype.sum_bijective Fin.rev Fin.rev_involutive.bijective _ _ (fun _ => rfl)

theorem rawHist_rot180 {H W : ℕ} (A : Fin H → Fin W → ℝ) (bins : ℕ) (b : Fin bins) :
    rawHist (oriOf (rot180 A)) (magOf (rot180 A)) bins b =
      rawHist (oriOf A) (magOf A) bins b := by
  rw [rawHist, rawHist]
  calc ∑ i, ∑ j, binContrib bins b (oriOf (rot180 A) i j) (magOf (rot180 A) i j)
      = ∑ i, ∑ j, binContrib bins b (oriOf A (Fin.rev i) (Fin.rev j))
          (magOf A (Fin.rev i) (Fin.rev j)) := by
        refine Finset.sum_congr rfl fun i _ => Finset.sum_congr rfl fun j _ => ?_
        rw [oriOf_rot180, magOf_rot180]
    _ = ∑ i, ∑ j, binContrib bins b (oriOf A (Fin.rev i) j) (magOf A (Fin.rev i) j) := by
        refine Finset.sum_congr rfl fun i _ => ?_
        exact sum_fin_rev (fun j => binContrib bins b (oriOf A (Fin.rev i) j)
          (magOf A (Fin.rev i) j))
    _ = ∑ i, ∑ j, binContrib bins b (oriOf A i j) (magOf A i j) :=
        sum_fin_rev (fun i => ∑ j, binContrib bins b (oriOf A i j) (magOf A i j))

/-- C9: for every image region, the magnitude-weighted unsigned-orientation
histogram of the region and of its 180°-rotated copy are identical (exactly,
in the real model, hence within floating tolerance): the unsigned
orientation `arctan2(|dy|, |dx|)` discards the sign of the gradient, which
is all that the rotation flips. -/
theorem hist_unsigned_rot180 {H W : ℕ} (A : Fin H → Fin W → ℝ) (bins : ℕ) (b : Fin bins) :
    hist_unsigned (oriOf (rot180 A)) (magOf (rot180 A)) bins b =
      hist_unsigned (oriOf A) (magOf A) bins b := by
  rw [hist_unsigned, hist_unsigned]
  by_cases h : H * W = 0
  · rw [if_pos h, if_pos h]
  · rw [if_neg h, if_neg h]
    have hall : ∀ c : Fin bins, rawHist (oriOf (rot180 A)) (magOf (rot180 A)) bins c =
        rawHist (oriOf A) (magOf A) bins c := rawHist_rot180 A bins
    have hs : (∑ c, rawHist (oriOf (rot180 A)) (magOf (rot180 A)) bins c ^ 2) =
        ∑ c, rawHist (oriOf A) (magOf A) bins c ^ 2 :=
      Finset.sum_congr rfl fun c _ => by rw [hall c]
    rw [hall b, hs]

theorem atan2abs_range (y x : ℝ) (hy : 0 ≤ y) :
    0 ≤ atan2abs y x ∧ atan2abs y x ≤ Real.pi / 2 := by
  rw [atan2abs]
  by_cases hx : 0 < x
  · rw [if_pos hx]
    have hnn : 0 ≤ Real.arctan (y / x) := by
      rw [← Real.arctan_zero]
      exact Real.arctan_strictMono.monotone (div_nonneg hy (le_of_lt hx))
    exact ⟨hnn, le_of_lt (Real.arctan_lt_pi_div_two _)⟩
  · rw [if_neg hx]
    by_cases hy' : 0 < y
    · rw [if_pos hy']
      exact ⟨by positivity, le_refl _⟩
    · rw [if_neg hy']
      exact ⟨le_refl _, by positivity⟩

/-- C10: every unsigned orientation value lies in `[0, π/2]` (both `atan2`
arguments are absolute values), so in every `bins`-bin histogram over
`[0, π]` each bin lying strictly above `π/2` (lower edge `π·b/bins > π/2`,
i.e. `2b > bins`) is exactly zero, both before and after normalization. -/
theorem ori_le_half_pi_and_upper_bins_zero {H W : ℕ} (A : Fin H → Fin W → ℝ)
    (bins : ℕ) (b : Fin bins) (hb : bins < 2 * b.val) :
    (∀ i j, 0 ≤ oriOf A i j ∧ oriOf A i j ≤ Real.pi / 2) ∧
    rawHist (oriOf A) (magOf A) bins b = 0 ∧
    hist_unsigned (oriOf A) (magOf A) bins b = 0 := by
  have hrange : ∀ i j, 0 ≤ oriOf A i j ∧ oriOf A i j ≤ Real.pi / 2 := by
    intro i j
    exact atan2abs_range _ _ (abs_nonneg _)
  have hbinsR : (0 : ℝ) < bins := by
    have : 0 < bins := b.pos
    exact_mod_cast this
  have hedge : Real.pi / 2 < Real.pi * b.val / bins := by
    rw [div_lt_div_iff₀ (by norm_num) hbinsR]
    have hbR : (bins : ℝ) < 2 * b.val := by exact_mod_cast hb
    have := Real.pi_pos
    nlinarith
  have hraw : rawHist (oriOf A) (magOf A) bins b = 0 := by
    rw [rawHist]
    refine Finset.sum_eq_zero fun i _ => Finset.sum_eq_zero fun j _ => ?_
    rw [binContrib, if_neg]
    intro hmem
    rcases hmem with ⟨hlo, -⟩ | ⟨-, hpi⟩
    · exact absurd (le_trans hlo (hrange i j).2) (not_le.mpr hedge)
    · have := (hrange i j).2
      rw [hpi] at this
      have := Real.pi_pos
      linarith
  refine ⟨hrange, hraw, ?_⟩
  rw [hist_unsigned]
  by_cases h : H * W = 0
  · rw [if_pos h]
  · rw [if_neg h, hraw, zero_div]

theorem ori_le_half_pi_and_upper_bins_zero_witness :
    4 < 2 * (3 : Fin 4).val ∧
    rawHist (oriOf (fun _ _ => (0 : ℝ))) (magOf (fun (_ : Fin 1) (_ : Fin 1) => (0 : ℝ))) 4
      (3 : Fin 4) = 0 := by
  have h := ori_le_half_pi_and_upper_bins_zero (fun (_ : Fin 1) (_ : Fin 1) => (0 : ℝ))
    4 (3 : Fin 4) (by decide)
  exact ⟨by decide, h.2.1⟩

/-! ## ZNCC scoring, lines 139-141

```
def zncc_normed_patch(patch, tpl_norm):
    pm, ps = patch.mean(), patch.std() + 1e-6
    return float(np.mean(((patch - pm) / ps) * tpl_norm))
```
A patch is a real-valued family over an arbitrary finite index type (the
raveled pixel grid); `.mean()`, `.std()` and the z-scoring are translated
literally. -/

/-- Model of `np.mean` over any finite index family. -/
noncomputable def fmean {ι : Type} [Fintype ι] (f : ι → ℝ) : ℝ :=
  (∑ i, f i) / (Fintype.card ι)

/-- The mean of squared deviations (`np.std` squared). -/
noncomputable def fvar {ι : Type} [Fintype ι] (f : ι → ℝ) : ℝ :=
  fmean (fun i => (f i - fmean f) ^ 2)

/-- Model of `np.std`: the square root of the mean squared deviation. -/
noncomputable def fstd {ι : Type} [Fintype ι] (f : ι → ℝ) : ℝ :=
  Real.sqrt (fvar f)

/-- Z-scoring with the `+ eps` guard on the standard deviation:
`(f - mean) / (std + eps)`. -/
noncomputable def znorm {ι : Type} [Fintype ι] (eps : ℝ) (f : ι → ℝ) : ι → ℝ :=
  fun i => (f i - fmean f) / (fstd f + eps)

/-- The function `zncc_normed_patch(patch, tpl_norm)`: the patch is z-scored with
`eps = 1e-6` and elementwise-multiplied against the pre-normalized
template, then averaged. -/
noncomputable def zncc_normed_patch {ι : Type} [Fintype ι] (patch tplNorm : ι → ℝ) : ℝ :=
  fmean (fun i => znorm (1e-6) patch i * tplNorm i)

theorem fmean_nonneg {ι : Type} [Fintype ι] (f : ι → ℝ) (h : ∀ i, 0 ≤ f i) :
    0 ≤ fmean f :=
  div_nonneg (Finset.sum_nonneg fun i _ => h i) (Nat.cast_nonneg _)

theorem fmean_div_const {ι : Type} [Fintype ι] (g : ι → ℝ) (c : ℝ) :
    fmean (fun i => g i / c) = fmean g / c := by
  unfold fmean
  rw [← Finset.sum_div, div_right_comm]

theorem fvar_nonneg {ι : Type} [Fintype ι] (f : ι → ℝ) : 0 ≤ fvar f :=
  fmean_nonneg _ fun _ => sq_nonneg _

theorem fvar_le_sq_fstd_add {ι : Type} [Fintype ι] (f : ι → ℝ) (eps : ℝ) (heps : 0 ≤ eps) :
    fvar f ≤ (fstd f + eps) ^ 2 := by
  have h1 : Real.sqrt (fvar f) ^ 2 = fvar f := Real.sq_sqrt (fvar_nonneg f)
  have h2 : 0 ≤ Real.sqrt (fvar f) := Real.sqrt_nonneg _
  rw [fstd]
  nlinarith

theorem fmean_sq_znorm_le_one {ι : Type} [Fintype ι] (f : ι → ℝ) (eps : ℝ) (heps : 0 < eps) :
    fmean (fun i => znorm eps f i ^ 2) ≤ 1 := by
  have hpos : 0 < (fstd f + eps) ^ 2 := by
    have : 0 ≤ fstd f := Real.sqrt_nonneg _
    positivity
  have hrw : (fun i => znorm eps f i ^ 2) =
      fun i => (f i - fmean f) ^ 2 / (fstd f + eps) ^ 2 := by
    funext i
    rw [znorm, div_pow]
  rw [hrw, fmean_div_const]
  rw [div_le_one hpos]
  exact fvar_le_sq_fstd_add f eps (le_of_lt heps)

theorem fmean_mul_sq_le {ι : Type} [Fintype ι] (f g : ι → ℝ) :
    fmean (fun i => f i * g i) ^ 2 ≤ fmean (fun i => f i ^ 2) * fmean (fun i => g i ^ 2) := by
  unfold fmean
  rw [div_pow, div_mul_div_comm, ← sq]
  rcases Nat.eq_zero_or_pos (Fintype.card ι) with h | h
  · have hempty : IsEmpty ι := Fintype.card_eq_zero_iff.mp h
    simp [h]
  · have hposR : (0 : ℝ) < ((Fintype.card ι : ℝ)) ^ 2 := by positivity
    rw [div_le_div_iff_of_pos_right hposR]
    exact Finset.sum_mul_sq_le_sq_mul_sq _ _ _

theorem abs_le_one_of_sq_le_one (x : ℝ) (h : x ^ 2 ≤ 1) : |x| ≤ 1 := by
  rw [abs_le]
  constructor <;> nlinarith

/-- The zero-normalized cross correlation against a z-scored template is
bounded by 1 in absolute value (both factors have mean square at most 1). -/
theorem abs_zncc_znorm_le_one {ι : Type} [Fintype ι] (patch tpl : ι → ℝ)
    (eps : ℝ) (heps : 0 < eps) :
    |zncc_normed_patch patch (znorm eps tpl)| ≤ 1 := by
  apply abs_le_one_of_sq_le_one
  calc zncc_normed_patch patch (znorm eps tpl) ^ 2
      ≤ fmean (fun i => znorm (1e-6) patch i ^ 2) * fmean (fun i => znorm eps tpl i ^ 2) :=
        fmean_mul_sq_le _ _
    _ ≤ 1 * 1 := by
        apply mul_le_mul (fmean_sq_znorm_le_one patch (1e-6) (by norm_num))
          (fmean_sq_znorm_le_one tpl eps heps)
          (fmean_nonneg _ fun i => sq_nonneg _) (by norm_num)
    _ = 1 := by norm_num

/-- The squared entries of a normalized orientation histogram sum to at
most 1 (the raw histogram is divided by its norm plus `1e-9`). -/
theorem sum_sq_hist_le_one {H W : ℕ} (ori mag : Fin H → Fin W → ℝ) (bins : ℕ) :
    ∑ b, hist_unsigned ori mag bins b ^ 2 ≤ 1 := by
  unfold hist_unsigned
  by_cases h : H * W = 0
  · simp [h]
  · simp only [if_neg h]
    have hS : 0 ≤ ∑ c, rawHist ori mag bins c ^ 2 :=
      Finset.sum_nonneg fun c _ => sq_nonneg _
    have hR : Real.sqrt (∑ c, rawHist ori mag bins c ^ 2) ^ 2 =
        ∑ c, rawHist ori mag bins c ^ 2 := Real.sq_sqrt hS
    have hRnn : 0 ≤ Real.sqrt (∑ c, rawHist ori mag bins c ^ 2) := Real.sqrt_nonneg _
    have hpos : 0 < (Real.sqrt (∑ c, rawHist ori mag bins c ^ 2) + 1e-9) ^ 2 := by positivity
    have hsum : (∑ b, (rawHist ori mag bins b /
          (Real.sqrt (∑ c, rawHist ori mag bins c ^ 2) + 1e-9)) ^ 2) =
        (∑ c, rawHist ori mag bins c ^ 2) /
          (Real.sqrt (∑ c, rawHist ori mag bins c ^ 2) + 1e-9) ^ 2 := by
      rw [Finset.sum_div]
      exact Finset.sum_congr rfl fun b _ => div_pow _ _ _
    rw [hsum, div_le_one hpos]
    nlinarith

/-- A dot product of two vectors each of squared norm at most 1 is at most
1 in absolute value (Cauchy-Schwarz). -/
theorem abs_dot_le_one {n : ℕ} (u v : Fin n → ℝ)
    (hu : ∑ b, u b ^ 2 ≤ 1) (hv : ∑ b, v b ^ 2 ≤ 1) :
    |∑ b, u b * v b| ≤ 1 := by
  apply abs_le_one_of_sq_le_one
  calc (∑ b, u b * v b) ^ 2 ≤ (∑ b, u b ^ 2) * ∑ b, v b ^ 2 :=
        Finset.sum_mul_sq_le_sq_mul_sq _ _ _
    _ ≤ 1 * 1 := by
        apply mul_le_mul hu hv (Finset.sum_nonneg fun b _ => sq_nonneg _) (by norm_num)
    _ = 1 := by norm_num

/-! ## Windows, the structure gate and the composite score, lines 329-354
and 388-410

Window origins are `x0 = int(round(xc - tw/2))`, `y0 = int(round(yc - th/2))`
with Python banker's rounding (round half to even).  A window of a map is
the `th × tw` slice at `(y0, x0)`; the fraction of structured pixels is
`struct_win.mean()`, an exact rational. -/

/-- Model of Python `int(round(x))`: round half to even. -/
def pyround (q : ℚ) : ℤ :=
  if q - ⌊q⌋ = 1/2 then (if Even ⌊q⌋ then ⌊q⌋ else ⌊q⌋ + 1) else round q

/-- Pixel lookup at integer coordinates, `0` outside the image (window
extraction below is only ever read in-bounds once the gates have passed). -/
noncomputable def pix {H W : ℕ} (A : Fin H → Fin W → ℝ) (y x : ℤ) : ℝ :=
  if h : 0 ≤ y ∧ y < H ∧ 0 ≤ x ∧ x < W then
    A ⟨y.toNat, by omega⟩ ⟨x.toNat, by omega⟩ else 0

/-- The `th × tw` window of a feature map at origin `(y0, x0)`:
`arr[y0:y0+th, x0:x0+tw]`. -/
noncomputable def winOf {H W : ℕ} (A : Fin H → Fin W → ℝ) (x0 y0 : ℤ) (tw th : ℕ) :
    Fin th → Fin tw → ℝ :=
  fun i j => pix A (y0 + i.val) (x0 + j.val)

/-- Boolean mask lookup at integer coordinates, `false` outside. -/
def maskAt {H W : ℕ} (M : Fin H → Fin W → Bool) (y x : ℤ) : Bool :=
  if h : 0 ≤ y ∧ y < H ∧ 0 ≤ x ∧ x < W then
    M ⟨y.toNat, by omega⟩ ⟨x.toNat, by omega⟩ else false

/-- Number of structured pixels in the window of the mask. -/
def maskWinCount {H W : ℕ} (M : Fin H → Fin W → Bool) (x0 y0 : ℤ) (tw th : ℕ) : ℕ :=
  ∑ i : Fin th, ∑ j : Fin tw, (if maskAt M (y0 + i.val) (x0 + j.val) then 1 else 0)

/-- Model of `struct_win.mean()`: the fraction of structured pixels in the window. -/
def structFrac {H W : ℕ} (M : Fin H → Fin W → Bool) (x0 y0 : ℤ) (tw th : ℕ) : ℚ :=
  (maskWinCount M x0 y0 tw th : ℚ) / ((th : ℚ) * tw)

/-- The configuration fields consumed by scoring and weighting. -/
structure PFConfig where
  W_ZNCC_HP : ℝ
  W_HOG : ℝ
  W_ZNCC_MAG : ℝ
  MIN_STRUCT_FRAC : ℚ
  HOG_BINS : ℕ

/-- The reference-image context fields consumed by scoring (`BigContext`). -/
structure BigCtx (H W : ℕ) where
  big_gray : Fin H → Fin W → ℝ
  big_hp : Fin H → Fin W → ℝ
  big_mag : Fin H → Fin W → ℝ
  big_struct_mask : Fin H → Fin W → Bool

/-- Ravel a 2-D window into a family over the product index type. -/
def flat2 {th tw : ℕ} (f : Fin th → Fin tw → ℝ) : Fin th × Fin tw → ℝ :=
  fun p => f p.1 p.2

/-- The full composite score of lines 338-354 (and identically 396-410):
`W_ZNCC_HP * s_hp + W_HOG * s_hog + W_ZNCC_MAG * s_mag`, where `s_hp` is
the ZNCC of the high-pass window against the z-scored template high-pass
patch, `s_hog` the dot product of normalized unsigned orientation
histograms, and `s_mag` the ZNCC of gradient-magnitude patches (computed
only when `W_ZNCC_MAG > 0`).  `tplHp` is the high-pass template
(`highpass(tpl, σ)`, with the Gaussian blur left abstract) and `tpl` the
raw template whose gradients feed the histogram and magnitude terms. -/
noncomputable def composite_score {H W th tw : ℕ} (cfg : PFConfig) (ctx : BigCtx H W)
    (tplHp tpl : Fin th → Fin tw → ℝ) (x0 y0 : ℤ) : ℝ :=
  cfg.W_ZNCC_HP *
      zncc_normed_patch (flat2 (winOf ctx.big_hp x0 y0 tw th)) (znorm (1e-6) (flat2 tplHp))
    + cfg.W_HOG *
      (∑ b, hist_unsigned (oriOf (winOf ctx.big_gray x0 y0 tw th))
          (magOf (winOf ctx.big_gray x0 y0 tw th)) cfg.HOG_BINS b *
        hist_unsigned (oriOf tpl) (magOf tpl) cfg.HOG_BINS b)
    + cfg.W_ZNCC_MAG *
      (if 0 < cfg.W_ZNCC_MAG then
        zncc_normed_patch (flat2 (winOf ctx.big_mag x0 y0 tw th))
          (znorm (1e-6) (flat2 (magOf tpl)))
      else 0)

theorem abs_weighted_three_le (w1 w2 w3 s1 s2 s3 : ℝ)
    (hw1 : 0 ≤ w1) (hw2 : 0 ≤ w2) (hw3 : 0 ≤ w3)
    (hs1 : |s1| ≤ 1) (hs2 : |s2| ≤ 1) (hs3 : |s3| ≤ 1) :
    |w1 * s1 + w2 * s2 + w3 * s3| ≤ w1 + w2 + w3 := by
  have t1 : |w1 * s1| ≤ w1 := by
    rw [abs_mul, abs_of_nonneg hw1]
    calc w1 * |s1| ≤ w1 * 1 := mul_le_mul_of_nonneg_left hs1 hw1
      _ = w1 := mul_one w1
  have t2 : |w2 * s2| ≤ w2 := by
    rw [abs_mul, abs_of_nonneg hw2]
    calc w2 * |s2| ≤ w2 * 1 := mul_le_mul_of_nonneg_left hs2 hw2
      _ = w2 := mul_one w2
  have t3 : |w3 * s3| ≤ w3 := by
    rw [abs_mul, abs_of_nonneg hw3]
    calc w3 * |s3| ≤ w3 * 1 := mul_le_mul_of_nonneg_left hs3 hw3
      _ = w3 := mul_one w3
  have h12 : |w1 * s1 + w2 * s2| ≤ |w1 * s1| + |w2 * s2| := abs_add _ _
  have h123 : |w1 * s1 + w2 * s2 + w3 * s3| ≤ |w1 * s1 + w2 * s2| + |w3 * s3| := abs_add _ _
  linarith

/-- The composite score is bounded by the sum of the three weights. -/
theorem abs_composite_score_le {H W th tw : ℕ} (cfg : PFConfig) (ctx : BigCtx H W)
    (tplHp tpl : Fin th → Fin tw → ℝ) (x0 y0 : ℤ)
    (h1 : 0 ≤ cfg.W_ZNCC_HP) (h2 : 0 ≤ cfg.W_HOG) (h3 : 0 ≤ cfg.W_ZNCC_MAG) :
    |composite_score cfg ctx tplHp tpl x0 y0| ≤
      cfg.W_ZNCC_HP + cfg.W_HOG + cfg.W_ZNCC_MAG := by
  have hhp : |zncc_normed_patch (flat2 (winOf ctx.big_hp x0 y0 tw th))
      (znorm (1e-6) (flat2 tplHp))| ≤ 1 :=
    abs_zncc_znorm_le_one _ _ _ (by norm_num)
  have hhog : |∑ b, hist_unsigned (oriOf (winOf ctx.big_gray x0 y0 tw th))
      (magOf (winOf ctx.big_gray x0 y0 tw th)) cfg.HOG_BINS b *
        hist_unsigned (oriOf tpl) (magOf tpl) cfg.HOG_BINS b| ≤ 1 :=
    abs_dot_le_one _ _ (sum_sq_hist_le_one _ _ _) (sum_sq_hist_le_one _ _ _)
  have hmag : |(if 0 < cfg.W_ZNCC_MAG then
      zncc_normed_patch (flat2 (winOf ctx.big_mag x0 y0 tw th))
        (znorm (1e-6) (flat2 (magOf tpl)))
    else 0)| ≤ 1 := by
    by_cases hc : 0 < cfg.W_ZNCC_MAG
    · rw [if_pos hc]
      exact abs_zncc_znorm_le_one _ _ _ (by norm_num)
    · rw [if_neg hc]
      norm_num
  rw [composite_score]
  exact abs_weighted_three_le _ _ _ _ _ _ h1 h2 h3 hhp hhog hmag

open Classical in
/-- The per-particle score of the PF loop, lines 330-354: the structure
gate (`struct_win.shape != (th, tw) or struct_win.mean() < MIN_STRUCT_FRAC`)
assigns the sentinel `-1e3` and skips the similarity terms; otherwise the
composite score is computed from the precomputed template features
`tpl_hp_norm`, `tpl_hist`, `tpl_mag_norm` (lines 274-282). -/
noncomputable def particle_score {H W : ℕ} (cfg : PFConfig) (ctx : BigCtx H W)
    (tw th : ℕ) (tpl_hp_norm : Fin th × Fin tw → ℝ) (tpl_hist : Fin cfg.HOG_BINS → ℝ)
    (tpl_mag_norm : Fin th × Fin tw → ℝ) (xc yc : ℚ) : ℝ :=
  if ¬(0 ≤ pyround (xc - tw/2) ∧ pyround (xc - tw/2) + tw ≤ (W : ℤ) ∧
        0 ≤ pyround (yc - th/2) ∧ pyround (yc - th/2) + th ≤ (H : ℤ)) ∨
      structFrac ctx.big_struct_mask (pyround (xc - tw/2)) (pyround (yc - th/2)) tw th <
        cfg.MIN_STRUCT_FRAC then
    -1000
  else
    cfg.W_ZNCC_HP *
        zncc_normed_patch
          (flat2 (winOf ctx.big_hp (pyround (xc - tw/2)) (pyround (yc - th/2)) tw th))
          tpl_hp_norm
      + cfg.W_HOG *
        (∑ b, hist_unsigned
            (oriOf (winOf ctx.big_gray (pyround (xc - tw/2)) (pyround (yc - th/2)) tw th))
            (magOf (winOf ctx.big_gray (pyround (xc - tw/2)) (pyround (yc - th/2)) tw th))
            cfg.HOG_BINS b * tpl_hist b)
      + cfg.W_ZNCC_MAG *
        (if 0 < cfg.W_ZNCC_MAG then
          zncc_normed_patch
            (flat2 (winOf ctx.big_mag (pyround (xc - tw/2)) (pyround (yc - th/2)) tw th))
            tpl_mag_norm
        else 0)

/-- C7: a particle whose (clipped) window has a structured-pixel fraction
below the configured minimum receives the `-1e3` sentinel score,
independently of the ZNCC, orientation-histogram and gradient-magnitude
similarity terms: the score is `-1e3` for every value of the template
features and of the high-pass, grayscale and gradient-magnitude maps (so
none of those terms influence it, i.e. none need be computed). -/
theorem structure_gate_sentinel {H W : ℕ} (cfg : PFConfig) (mask : Fin H → Fin W → Bool)
    (tw th : ℕ) (xc yc : ℚ)
    (hfrac : structFrac mask (pyround (xc - tw/2)) (pyround (yc - th/2)) tw th <
      cfg.MIN_STRUCT_FRAC) :
    ∀ (gray hp mag : Fin H → Fin W → ℝ) (tpl_hp_norm : Fin th × Fin tw → ℝ)
      (tpl_hist : Fin cfg.HOG_BINS → ℝ) (tpl_mag_norm : Fin th × Fin tw → ℝ),
      particle_score cfg ⟨gray, hp, mag, mask⟩ tw th tpl_hp_norm tpl_hist tpl_mag_norm xc yc
        = -1000 := by
  intro gray hp mag tpl_hp_norm tpl_hist tpl_mag_norm
  rw [particle_score, if_pos]
  exact Or.inr hfrac

theorem structure_gate_sentinel_witness :
    structFrac (fun (_ : Fin 10) (_ : Fin 10) => false) (pyround ((5:ℚ) - 2/2))
        (pyround ((5:ℚ) - 2/2)) 2 2 < (1/4 : ℚ) ∧
    particle_score ⟨0.55, 0.35, 0.10, 1/4, 16⟩
      ⟨fun _ _ => 0, fun _ _ => 0, fun _ _ => 0, fun (_ : Fin 10) (_ : Fin 10) => false⟩
      2 2 (fun _ => 0) (fun _ => 0) (fun _ => 0) 5 5 = -1000 := by
  have hcount : maskWinCount (fun (_ : Fin 10) (_ : Fin 10) => false)
      (pyround ((5:ℚ) - 2/2)) (pyround ((5:ℚ) - 2/2)) 2 2 = 0 := by
    unfold maskWinCount
    refine Finset.sum_eq_zero fun i _ => Finset.sum_eq_zero fun j _ => ?_
    rw [if_neg]
    unfold maskAt
    split <;> simp
  have hfrac : structFrac (fun (_ : Fin 10) (_ : Fin 10) => false) (pyround ((5:ℚ) - 2/2))
      (pyround ((5:ℚ) - 2/2)) 2 2 < (1/4 : ℚ) := by
    unfold structFrac
    rw [hcount]
    norm_num
  exact ⟨hfrac, structure_gate_sentinel ⟨0.55, 0.35, 0.10, 1/4, 16⟩
    (fun _ _ => false) 2 2 5 5 hfrac 0 0 0 (fun _ => 0) (fun _ => 0) (fun _ => 0)⟩

/-! ## Mirror disambiguation, lines 388-424

```
def structure_score_at(xc, yc):
    x0 = int(round(xc - tw/2)); y0 = int(round(yc - th/2))
    if x0 < 0 or y0 < 0 or x0+tw >= W or y0+th >= H: return -1e9
    if struct_win.mean() < cfg.MIN_STRUCT_FRAC: return -1e9
    <full composite score>
s_here = structure_score_at(xh, yh)
xm, ym = 2*(W/2) - xh, 2*(H/2) - yh
s_mirr = structure_score_at(xm, ym)
if s_mirr > s_here: xh, yh = xm, ym
```
-/

/-- The out-of-bounds test of `structure_score_at` (note the strict
`x0+tw >= W`, so a window touching the right/bottom edge is also gated). -/
def mirror_oob (W H tw th : ℕ) (xc yc : ℚ) : Prop :=
  pyround (xc - tw/2) < 0 ∨ pyround (yc - th/2) < 0 ∨
    (W : ℤ) ≤ pyround (xc - tw/2) + tw ∨ (H : ℤ) ≤ pyround (yc - th/2) + th

/-- The low-structure test of `structure_score_at`. -/
def low_struct {H W : ℕ} (mask : Fin H → Fin W → Bool) (minFrac : ℚ)
    (tw th : ℕ) (xc yc : ℚ) : Prop :=
  structFrac mask (pyround (xc - tw/2)) (pyround (yc - th/2)) tw th < minFrac

open Classical in
/-- The function `structure_score_at(xc, yc)`: the gates return the large negative
`-1e9`; otherwise the full composite score is evaluated. -/
noncomputable def structure_score_at {H W th tw : ℕ} (cfg : PFConfig) (ctx : BigCtx H W)
    (tplHp tpl : Fin th → Fin tw → ℝ) (xc yc : ℚ) : ℝ :=
  if mirror_oob W H tw th xc yc then -1e9
  else if low_struct ctx.big_struct_mask cfg.MIN_STRUCT_FRAC tw th xc yc then -1e9
  else composite_score cfg ctx tplHp tpl (pyround (xc - tw/2)) (pyround (yc - th/2))

/-- The point reflection of a coordinate through the image center:
`2*(W/2) - x`. -/
def mirror_px (n : ℕ) (v : ℚ) : ℚ := 2 * ((n : ℚ) / 2) - v

open Classical in
/-- Lines 412-424: the final pixel estimate is the mirror position when
`s_mirr > s_here`, else the refined position. -/
noncomputable def mirror_choice {H W th tw : ℕ} (cfg : PFConfig) (ctx : BigCtx H W)
    (tplHp tpl : Fin th → Fin tw → ℝ) (xh yh : ℚ) : ℚ × ℚ :=
  if structure_score_at cfg ctx tplHp tpl xh yh <
      structure_score_at cfg ctx tplHp tpl (mirror_px W xh) (mirror_px H yh) then
    (mirror_px W xh, mirror_px H yh)
  else (xh, yh)

/-- C6 counterexample to the claim as stated: when the refined position is
the image center, the final estimate trivially equals its own point
reflection although the mirror's composite score does not strictly exceed
the refined position's (the two candidates coincide), so "estimate equals
the reflection exactly when the mirror score is strictly higher" fails. -/
theorem mirror_exactly_when_fails_at_center :
    mirror_choice (H := 10) (W := 10) ⟨0.55, 0.35, 0.10, 1/4, 16⟩
        ⟨fun _ _ => 0, fun _ _ => 0, fun _ _ => 0, fun _ _ => false⟩
        (fun (_ : Fin 2) (_ : Fin 2) => 0) (fun _ _ => 0) 5 5
      = (mirror_px 10 5, mirror_px 10 5) ∧
    ¬ (structure_score_at (H := 10) (W := 10) ⟨0.55, 0.35, 0.10, 1/4, 16⟩
        ⟨fun _ _ => 0, fun _ _ => 0, fun _ _ => 0, fun _ _ => false⟩
        (fun (_ : Fin 2) (_ : Fin 2) => 0) (fun _ _ => 0) 5 5 <
      structure_score_at (H := 10) (W := 10) ⟨0.55, 0.35, 0.10, 1/4, 16⟩
        ⟨fun _ _ => 0, fun _ _ => 0, fun _ _ => 0, fun _ _ => false⟩
        (fun (_ : Fin 2) (_ : Fin 2) => 0) (fun _ _ => 0) (mirror_px 10 5) (mirror_px 10 5)) := by
  have hm : mirror_px 10 (5 : ℚ) = 5 := by
    unfold mirror_px
    norm_num
  constructor
  · rw [mirror_choice, hm, if_neg (lt_irrefl _)]
  · rw [hm]
    exact lt_irrefl _

/-- C6 amended: the final estimate equals the mirror position exactly when
the mirror's full composite (structure-gated) score strictly exceeds the
refined position's, or the refined position is the reflection fixed point
(image center), where the two coincide; and a mirror candidate that is
out-of-bounds or below the minimum structured fraction scores `-1e9` and
is never selected over the refined position. -/
theorem mirror_disambiguation (H W th tw : ℕ) (cfg : PFConfig) (ctx : BigCtx H W)
    (tplHp tpl : Fin th → Fin tw → ℝ) (xh yh : ℚ)
    (h1 : 0 ≤ cfg.W_ZNCC_HP) (h2 : 0 ≤ cfg.W_HOG) (h3 : 0 ≤ cfg.W_ZNCC_MAG)
    (hsum : cfg.W_ZNCC_HP + cfg.W_HOG + cfg.W_ZNCC_MAG < 1e9) :
    (mirror_choice cfg ctx tplHp tpl xh yh = (mirror_px W xh, mirror_px H yh) ↔
      (structure_score_at cfg ctx tplHp tpl xh yh <
          structure_score_at cfg ctx tplHp tpl (mirror_px W xh) (mirror_px H yh) ∨
        (mirror_px W xh, mirror_px H yh) = (xh, yh))) ∧
    (mirror_oob W H tw th (mirror_px W xh) (mirror_px H yh) ∨
        low_struct ctx.big_struct_mask cfg.MIN_STRUCT_FRAC tw th
          (mirror_px W xh) (mirror_px H yh) →
      structure_score_at cfg ctx tplHp tpl (mirror_px W xh) (mirror_px H yh) = -1e9 ∧
      mirror_choice cfg ctx tplHp tpl xh yh = (xh, yh)) := by
  have hhere : -1e9 ≤ structure_score_at cfg ctx tplHp tpl xh yh := by
    rw [structure_score_at]
    by_cases ho : mirror_oob W H tw th xh yh
    · rw [if_pos ho]
    · rw [if_neg ho]
      by_cases hl : low_struct ctx.big_struct_mask cfg.MIN_STRUCT_FRAC tw th xh yh
      · rw [if_pos hl]
      · rw [if_neg hl]
        have hb := abs_composite_score_le cfg ctx tplHp tpl
          (pyround (xh - tw/2)) (pyround (yh - th/2)) h1 h2 h3
        have := abs_le.mp hb
        linarith
  constructor
  · rw [mirror_choice]
    by_cases hlt : structure_score_at cfg ctx tplHp tpl xh yh <
        structure_score_at cfg ctx tplHp tpl (mirror_px W xh) (mirror_px H yh)
    · rw [if_pos hlt]
      exact ⟨fun _ => Or.inl hlt, fun _ => rfl⟩
    · rw [if_neg hlt]
      constructor
      · intro hxy
        exact Or.inr hxy.symm
      · rintro (hc | hc)
        · exact absurd hc hlt
        · exact hc.symm
  · intro hgate
    have hmirr : structure_score_at cfg ctx tplHp tpl (mirror_px W xh) (mirror_px H yh)
        = -1e9 := by
      rw [structure_score_at]
      rcases hgate with ho | hl
      · rw [if_pos ho]
      · by_cases ho : mirror_oob W H tw th (mirror_px W xh) (mirror_px H yh)
        · rw [if_pos ho]
        · rw [if_neg ho, if_pos hl]
    refine ⟨hmirr, ?_⟩
    rw [mirror_choice, if_neg]
    rw [hmirr]
    exact not_lt.mpr hhere

theorem mirror_disambiguation_witness :
    ((0:ℝ) ≤ 0.55 ∧ (0:ℝ) ≤ 0.35 ∧ (0:ℝ) ≤ 0.10 ∧ (0.55:ℝ) + 0.35 + 0.10 < 1e9) ∧
    (mirror_choice (H := 10) (W := 10) ⟨0.55, 0.35, 0.10, 1/4, 16⟩
        ⟨fun _ _ => 0, fun _ _ => 0, fun _ _ => 0, fun _ _ => false⟩
        (fun (_ : Fin 2) (_ : Fin 2) => 0) (fun _ _ => 0) 3 4
      = (mirror_px 10 3, mirror_px 10 4) ↔
      (structure_score_at (H := 10) (W := 10) ⟨0.55, 0.35, 0.10, 1/4, 16⟩
          ⟨fun _ _ => 0, fun _ _ => 0, fun _ _ => 0, fun _ _ => false⟩
          (fun (_ : Fin 2) (_ : Fin 2) => 0) (fun _ _ => 0) 3 4 <
        structure_score_at (H := 10) (W := 10) ⟨0.55, 0.35, 0.10, 1/4, 16⟩
          ⟨fun _ _ => 0, fun _ _ => 0, fun _ _ => 0, fun _ _ => false⟩
          (fun (_ : Fin 2) (_ : Fin 2) => 0) (fun _ _ => 0) (mirror_px 10 3) (mirror_px 10 4) ∨
        (mirror_px 10 3, mirror_px 10 4) = (3, 4))) := by
  refine ⟨⟨by norm_num, by norm_num, by norm_num, by norm_num⟩, ?_⟩
  exact (mirror_disambiguation 10 10 2 2 ⟨0.55, 0.35, 0.10, 1/4, 16⟩
    ⟨fun _ _ => 0, fun _ _ => 0, fun _ _ => 0, fun _ _ => false⟩
    (fun _ _ => 0) (fun _ _ => 0) 3 4
    (by norm_num) (by norm_num) (by norm_num) (by norm_num)).1

/-! ## Confidence, lines 366-368 and 426-431

```
w = weights / (weights.sum() + 1e-12)
...
w_sorted = np.sort(w)[::-1]
margin = float(w_sorted[0] - w_sorted[1]) if len(w) > 1 else 0.0
Hent = -np.sum(np.where(w > 0, w * np.log(w + 1e-12), 0.0))
conf = float(1.0 - Hent / np.log(len(w) + 1e-12))
conf = 0.5 * conf + 0.5 * np.clip(margin * 5.0, 0.0, 1.0)
```
Note that the combined value is *not* clipped: only the margin term is. -/

/-- Line 368: `w = weights / (weights.sum() + 1e-12)`. -/
noncomputable def normalizeW (weights : List ℝ) : List ℝ :=
  weights.map (fun v => v / (weights.sum + 1e-12))

open Classical in
/-- Model of `np.sort(w)[::-1]`: sort ascending, then reverse. -/
noncomputable def sortedDesc (xs : List ℝ) : List ℝ :=
  (List.insertionSort (fun a b => a ≤ b) xs).reverse

open Classical in
/-- The confidence computed from the terminal PF weights, lines 427-431. -/
noncomputable def conf_of (weights : List ℝ) : ℝ :=
  let w := normalizeW weights
  let margin := if 1 < w.length then (sortedDesc w).getD 0 0 - (sortedDesc w).getD 1 0 else 0
  let Hent := -(w.map (fun v => if 0 < v then v * Real.log (v + 1e-12) else 0)).sum
  0.5 * (1 - Hent / Real.log ((w.length : ℝ) + 1e-12)) +
    0.5 * min (max (margin * 5) 0) 1

theorem one_sub_inv_le_log (x : ℝ) (hx : 0 < x) : 1 - 1/x ≤ Real.log x := by
  have h := Real.log_le_sub_one_of_pos (x := 1/x) (by positivity)
  rw [Real.log_div one_ne_zero (ne_of_gt hx)] at h
  simp only [Real.log_one, zero_sub, one_div] at h ⊢
  linarith

theorem exp_neg_700_small : Real.exp (-700) ≤ 1e-100 := by
  have h2 : (2 : ℝ) ≤ Real.exp 1 := by
    have h := Real.exp_one_gt_d9
    norm_num at h
    linarith
  have hpow : (2 : ℝ) ^ (700 : ℕ) ≤ Real.exp 1 ^ (700 : ℕ) :=
    pow_le_pow_left₀ (by norm_num) h2 700
  have he : Real.exp 700 = Real.exp 1 ^ (700 : ℕ) := by
    rw [← Real.exp_nat_mul]
    norm_num
  have hb : (1e100 : ℝ) ≤ (2 : ℝ) ^ (700 : ℕ) := by norm_num
  rw [show (-700 : ℝ) = -(700 : ℝ) by norm_num, Real.exp_neg,
    show (1e-100 : ℝ) = (1e100)⁻¹ by norm_num]
  apply inv_anti₀ (by norm_num)
  calc (1e100 : ℝ) ≤ (2 : ℝ) ^ (700 : ℕ) := hb
    _ ≤ Real.exp 1 ^ (700 : ℕ) := hpow
    _ = Real.exp 700 := he.symm

theorem log_trillionth_ge : (-28 : ℝ) ≤ Real.log (1e-12) := by
  have h27 : (2.7 : ℝ) ≤ Real.exp 1 := by
    have h := Real.exp_one_gt_d9
    norm_num at h ⊢
    linarith
  have hpow : (2.7 : ℝ) ^ (28 : ℕ) ≤ Real.exp 1 ^ (28 : ℕ) :=
    pow_le_pow_left₀ (by norm_num) h27 28
  have he : Real.exp 28 = Real.exp 1 ^ (28 : ℕ) := by
    rw [← Real.exp_nat_mul]
    norm_num
  have hb : (1e12 : ℝ) ≤ (2.7 : ℝ) ^ (28 : ℕ) := by norm_num
  have h1 : Real.log (1e12) ≤ 28 := by
    rw [Real.log_le_iff_le_exp (by norm_num)]
    calc (1e12 : ℝ) ≤ (2.7 : ℝ) ^ (28 : ℕ) := hb
      _ ≤ Real.exp 1 ^ (28 : ℕ) := hpow
      _ = Real.exp 28 := he.symm
  rw [show (1e-12 : ℝ) = (1e12)⁻¹ by norm_num, Real.log_inv]
  linarith

/-- Evaluation of `conf_of` on a two-weight list whose renormalization is
`[A, B]` with `0 < B < A`. -/
theorem conf_of_pair_eval (u v A B : ℝ) (hAB : normalizeW [u, v] = [A, B])
    (hBA : B < A) (hApos : 0 < A) (hBpos : 0 < B) :
    conf_of [u, v] =
      0.5 * (1 - (-(A * Real.log (A + 1e-12) + B * Real.log (B + 1e-12))) /
        Real.log ((2 : ℝ) + 1e-12)) +
      0.5 * min (max ((A - B) * 5) 0) 1 := by
  have hsort : sortedDesc [A, B] = [A, B] := by
    rw [sortedDesc]
    simp [List.insertionSort, List.orderedInsert, if_neg (not_le.mpr hBA)]
  rw [conf_of]
  simp only [hAB, hsort, List.length_cons, List.length_nil, List.getD_cons_zero,
    List.getD_cons_succ, List.map_cons, List.map_nil, List.sum_cons, List.sum_nil,
    add_zero, if_pos hApos, if_pos hBpos]
  norm_num

set_option maxHeartbeats 1600000 in
/-- Auxiliary inequality: for any `0 < t ≤ 1e-100`, the *exact-real*
confidence computed from the weights `[1/(1+t), t/(1+t)]` strictly exceeds
1 — the renormalized dominant weight `A` satisfies `A + 1e-12 > 1` by about
`1e-24`, so its entropy summand is negative.  The excess is far below the
resolution of float64, where `A + 1e-12` rounds to at most `1.0`; the
inequality is therefore a property of the exact-real idealization only. -/
theorem conf_of_two_weights_gt_one (t : ℝ) (ht : 0 < t) (htle : t ≤ 1e-100) :
    1 < conf_of [1 / (1 + t), t / (1 + t)] := by
  have hspos : (0 : ℝ) < 1 + t := by linarith
  have h1t : (1 : ℝ) + t ≠ 0 := ne_of_gt hspos
  have hwsum : ([1 / (1 + t), t / (1 + t)] : List ℝ).sum = 1 := by
    simp only [List.sum_cons, List.sum_nil, add_zero]
    field_simp
  obtain ⟨A, hAdef⟩ : ∃ x : ℝ, x = (1 / (1 + t)) / (1 + 1e-12) := ⟨_, rfl⟩
  obtain ⟨B, hBdef⟩ : ∃ x : ℝ, x = (t / (1 + t)) / (1 + 1e-12) := ⟨_, rfl⟩
  have hApos : 0 < A := by
    rw [hAdef]
    positivity
  have hBpos : 0 < B := by
    rw [hBdef]
    positivity
  have hnorm : normalizeW [1 / (1 + t), t / (1 + t)] = [A, B] := by
    rw [normalizeW, hwsum, hAdef, hBdef]
    norm_num
  have hAD : A * ((1 + t) * (1 + 1e-12)) = 1 := by
    rw [hAdef]
    field_simp
  have hBD : B * ((1 + t) * (1 + 1e-12)) = t := by
    rw [hBdef]
    field_simp
  have hDpos : (0 : ℝ) < (1 + t) * (1 + 1e-12) := by positivity
  have hD1 : (1 : ℝ) ≤ (1 + t) * (1 + 1e-12) := by nlinarith
  have hD2 : (1 + t) * (1 + 1e-12) ≤ 2 := by nlinarith
  have hA_half : (1/2 : ℝ) ≤ A := by nlinarith
  have hA_le_one : A ≤ 1 := by nlinarith
  have hB_le : B ≤ t := by nlinarith
  have hBA : B < A := by linarith
  -- the dominant renormalized weight still satisfies `A + 1e-12 > 1`
  have hkey : (1 + 4e-25 - 1e-12) * ((1 + t) * (1 + 1e-12)) ≤ 1 := by nlinarith
  have hA1 : (1 : ℝ) + 4e-25 ≤ A + 1e-12 := by nlinarith [hkey, hAD, hDpos]
  have hlogA : (2e-25 : ℝ) ≤ Real.log (A + 1e-12) := by
    have hy : (0 : ℝ) < A + 1e-12 := by linarith
    have hlb := one_sub_inv_le_log (A + 1e-12) hy
    have hinv : 1 / (A + 1e-12) ≤ 1 - 2e-25 := by
      rw [div_le_iff₀ hy]
      nlinarith
    linarith
  have hlogB : (-28 : ℝ) ≤ Real.log (B + 1e-12) := by
    have h1 : Real.log (1e-12) ≤ Real.log (B + 1e-12) := by
      rw [Real.log_le_log_iff (by norm_num) (by linarith)]
      linarith
    linarith [log_trillionth_ge]
  have hT : 0 < A * Real.log (A + 1e-12) + B * Real.log (B + 1e-12) := by
    have hfirst : (1/2 : ℝ) * (2e-25) ≤ A * Real.log (A + 1e-12) :=
      mul_le_mul hA_half hlogA (by norm_num) (by linarith)
    have hsecond : B * (-28) ≤ B * Real.log (B + 1e-12) :=
      mul_le_mul_of_nonneg_left hlogB (le_of_lt hBpos)
    have hBsmall : B ≤ 1e-100 := le_trans hB_le htle
    nlinarith [hfirst, hsecond, hBsmall, hBpos]
  have hL : 0 < Real.log ((2 : ℝ) + 1e-12) := Real.log_pos (by norm_num)
  have hmarg : min (max ((A - B) * 5) 0) 1 = 1 := by
    have h5 : (1 : ℝ) ≤ (A - B) * 5 := by
      have hBsmall : B ≤ 1e-100 := le_trans hB_le htle
      linarith
    exact min_eq_right (le_trans h5 (le_max_left _ _))
  rw [conf_of_pair_eval _ _ A B hnorm hBA hApos hBpos, hmarg]
  have hq : 0 < (A * Real.log (A + 1e-12) + B * Real.log (B + 1e-12)) /
      Real.log ((2 : ℝ) + 1e-12) := div_pos hT hL
  have hrw : 0.5 * (1 - (-(A * Real.log (A + 1e-12) + B * Real.log (B + 1e-12))) /
        Real.log ((2 : ℝ) + 1e-12)) + 0.5 * 1 =
      1 + ((A * Real.log (A + 1e-12) + B * Real.log (B + 1e-12)) /
        Real.log ((2 : ℝ) + 1e-12)) / 2 := by
    ring
  rw [hrw]
  linarith

/-- On the run with two particles of composite scores `[0.5, -1000]` (the
second structure-gated) and softmax gain 20, the exact-real model of the
unclamped confidence strictly exceeds 1.  This shows that whether the
returned confidence stays within `[0, 1]` is decided by float64 rounding,
not by the formula of lines 427-431: the exact value of the combination
exceeds 1 by roughly `7e-25`, an amount that float64 rounds away (there
`w₀ + 1e-12` evaluates to at most `1.0` and the entropy stays
nonnegative), so the sub-ULP excess never surfaces in the program. -/
theorem conf_of_real_model_exceeds_one :
    1 < conf_of (softmax [FVal.fin 0.5, FVal.fin (-1000)] 20) := by
  have hm : FVal.nanmax [FVal.fin 0.5, FVal.fin (-1000)] = FVal.fin 0.5 := by
    rw [FVal.nanmax]
    simp only [List.filter, FVal.isNan, Bool.not_false]
    rw [List.foldl, List.foldl, FVal.fmax]
    rw [max_eq_left (by norm_num)]
  have hz : expScores [FVal.fin 0.5, FVal.fin (-1000)] 20 = [1, Real.exp (-700)] := by
    rw [expScores, hm]
    simp only [List.map, FVal.fsub, FVal.fscale, FVal.fclip, FVal.fexp, FVal.toNum]
    rw [show min (max (20 * ((0.5 : ℝ) - 0.5)) (-700)) 700 = 0 by norm_num,
      show min (max (20 * ((-1000 : ℝ) - 0.5)) (-700)) 700 = -700 by norm_num,
      Real.exp_zero]
  have hls : ([1, Real.exp (-700)] : List ℝ).sum = 1 + Real.exp (-700) := by
    simp
  have hspos : (0 : ℝ) < 1 + Real.exp (-700) := by positivity
  have hsoft : softmax [FVal.fin 0.5, FVal.fin (-1000)] 20 =
      [1 / (1 + Real.exp (-700)), Real.exp (-700) / (1 + Real.exp (-700))] := by
    rw [softmax]
    simp only [hz, hls]
    rw [if_pos hspos]
    simp
  rw [hsoft]
  exact conf_of_two_weights_gt_one (Real.exp (-700)) (Real.exp_pos _) exp_neg_700_small

end PF
